import Mathlib

/-!
Verification of the peer discovery and messaging core of the countdown-APIREST
repository (src/communication.ts, src/peerManager.ts, src/discovery.ts,
src/p2pService.ts), shallowly embedded in Lean.

JSON values are modelled exactly, except that numbers are exact integers (the
wire payloads of this subsystem only carry integer-valued numbers; IEEE-754
doubles are outside the model).  `jsonStringify` models `JSON.stringify` and
`jsonParse` models `JSON.parse`, both over `List Char` as the model of a
JavaScript string.
-/

namespace P2P

/-- The framing delimiter `P2P_MESSAGE_DELIMITER = '\n'` from src/config.ts. -/
def msgDelimiter : Char := '\n'

mutual

/-- A JSON-serializable value (numbers restricted to exact integers). -/
inductive Json : Type where
  | null : Json
  | boolean : Bool → Json
  | number : Int → Json
  | string : List Char → Json
  | array : JArr → Json
  | object : JObj → Json

/-- The element list of a JSON array. -/
inductive JArr : Type where
  | nil : JArr
  | cons : Json → JArr → JArr

/-- The member list of a JSON object. -/
inductive JObj : Type where
  | nil : JObj
  | cons : List Char → Json → JObj → JObj

end

/-- Decimal digit characters of `n`, most significant first (empty for 0). -/
def natDigitChars (n : Nat) : List Char :=
  (Nat.digits 10 n).reverse.map (fun d => Char.ofNat (48 + d))

/-- Decimal representation of a natural number, as `String(n)` renders it. -/
def natChars (n : Nat) : List Char :=
  if n = 0 then ['0'] else natDigitChars n

/-- Decimal representation of an integer, as `JSON.stringify` renders it. -/
def intChars (i : Int) : List Char :=
  if i < 0 then '-' :: natChars i.natAbs else natChars i.natAbs

/-- Lower-case hexadecimal digit character for `n < 16`. -/
def hexDigitChar (n : Nat) : Char :=
  if n < 10 then Char.ofNat (48 + n) else Char.ofNat (87 + n)

/-- One character of a JSON string literal, escaped the way `JSON.stringify`
escapes it: `"`, `\`, the shorthand control escapes, and `\u00XX` for the
remaining control characters. -/
def escapeChar (c : Char) : List Char :=
  if c = '"' then ['\\', '"']
  else if c = '\\' then ['\\', '\\']
  else if c = '\n' then ['\\', 'n']
  else if c = '\r' then ['\\', 'r']
  else if c = '\t' then ['\\', 't']
  else if c = Char.ofNat 8 then ['\\', 'b']
  else if c = Char.ofNat 12 then ['\\', 'f']
  else if c.toNat < 32 then
    ['\\', 'u', '0', '0', hexDigitChar (c.toNat / 16), hexDigitChar (c.toNat % 16)]
  else [c]

/-- A whole string body, escaped character by character. -/
def escList : List Char → List Char
  | [] => []
  | c :: cs => escapeChar c ++ escList cs

mutual

/-- Models `JSON.stringify` on the modelled values: no added whitespace, strings
escaped by `escapeChar`, integers in decimal. -/
def jsonStringify : Json → List Char
  | .null => ['n', 'u', 'l', 'l']
  | .boolean true => ['t', 'r', 'u', 'e']
  | .boolean false => ['f', 'a', 'l', 's', 'e']
  | .number i => intChars i
  | .string s => '"' :: (escList s ++ ['"'])
  | .array xs => '[' :: (stringifyArr xs ++ [']'])
  | .object ms => '{' :: (stringifyObj ms ++ ['}'])

/-- Comma-separated renderings of array elements. -/
def stringifyArr : JArr → List Char
  | .nil => []
  | .cons v .nil => jsonStringify v
  | .cons v (.cons w rest) => jsonStringify v ++ ',' :: stringifyArr (.cons w rest)

/-- Comma-separated renderings of object members. -/
def stringifyObj : JObj → List Char
  | .nil => []
  | .cons k v .nil => '"' :: (escList k ++ '"' :: ':' :: jsonStringify v)
  | .cons k v (.cons k2 v2 rest) =>
      '"' :: (escList k ++ '"' :: ':' :: jsonStringify v)
        ++ ',' :: stringifyObj (.cons k2 v2 rest)

end

/-- JSON insignificant whitespace. -/
def jsonWs (c : Char) : Bool :=
  c = ' ' || c = '\t' || c = '\n' || c = '\r'

/-- Drop leading insignificant whitespace. -/
def dropWs : List Char → List Char
  | [] => []
  | c :: cs => if jsonWs c then dropWs cs else c :: cs

/-- Decimal digit test. -/
def isDigitChar (c : Char) : Bool :=
  48 ≤ c.toNat && c.toNat ≤ 57

/-- Split a leading run of decimal digits from the input. -/
def digitSpan : List Char → List Char × List Char
  | [] => ([], [])
  | c :: cs =>
      if isDigitChar c then
        let p := digitSpan cs
        (c :: p.1, p.2)
      else ([], c :: cs)

/-- Numeric value of a list of decimal digit characters. -/
def digitsVal (ds : List Char) : Nat :=
  ds.foldl (fun a c => 10 * a + (c.toNat - 48)) 0

/-- Parse a nonempty digit run into a natural number. -/
def parseNatPart (cs : List Char) : Option (Nat × List Char) :=
  let p := digitSpan cs
  if p.1 = [] then none else some (digitsVal p.1, p.2)

/-- Parse an optionally signed decimal integer. -/
def parseIntPart : List Char → Option (Int × List Char)
  | '-' :: r => (parseNatPart r).map (fun p => (-(p.1 : Int), p.2))
  | cs => (parseNatPart cs).map (fun p => ((p.1 : Int), p.2))

/-- Value of a hexadecimal digit character, if it is one. -/
def hexVal (c : Char) : Option Nat :=
  if 48 ≤ c.toNat && c.toNat ≤ 57 then some (c.toNat - 48)
  else if 97 ≤ c.toNat && c.toNat ≤ 102 then some (c.toNat - 87)
  else if 65 ≤ c.toNat && c.toNat ≤ 70 then some (c.toNat - 55)
  else none

/-- Value of four hexadecimal digit characters. -/
def hex4 (a b c d : Char) : Option Nat := do
  let va ← hexVal a
  let vb ← hexVal b
  let vc ← hexVal c
  let vd ← hexVal d
  return 16 * (16 * (16 * va + vb) + vc) + vd

/-- The single-character escape codes accepted after a backslash: the
shorthand control escapes plus the three self-mapping characters. -/
def escDecode (e : Char) : Option Char :=
  if e = 'n' then some '\n'
  else if e = 't' then some '\t'
  else if e = 'r' then some '\r'
  else if e = 'b' then some (Char.ofNat 8)
  else if e = 'f' then some (Char.ofNat 12)
  else if e = '"' || e = '\\' || e = '/' then some e
  else none

/-- Parse the body of a string literal, after the opening quote, up to and
including the closing quote.  Raw control characters are rejected, as
`JSON.parse` rejects them. -/
def stringBody : List Char → Option (List Char × List Char)
  | '"' :: r => some ([], r)
  | '\\' :: 'u' :: a :: b :: c :: d :: r =>
      match hex4 a b c d with
      | some n => (stringBody r).map (fun p => (Char.ofNat n :: p.1, p.2))
      | none => none
  | '\\' :: e :: r =>
      match escDecode e with
      | some ch => (stringBody r).map (fun p => (ch :: p.1, p.2))
      | none => none
  | c :: r =>
      if c.toNat < 32 then none
      else (stringBody r).map (fun p => (c :: p.1, p.2))
  | [] => none

mutual

/-- Parse one JSON value (fuel-bounded recursive descent). -/
def pValue : Nat → List Char → Option (Json × List Char)
  | 0, _ => none
  | fuel + 1, cs =>
    match dropWs cs with
    | 'n' :: 'u' :: 'l' :: 'l' :: r => some (.null, r)
    | 't' :: 'r' :: 'u' :: 'e' :: r => some (.boolean true, r)
    | 'f' :: 'a' :: 'l' :: 's' :: 'e' :: r => some (.boolean false, r)
    | '"' :: r => (stringBody r).map (fun p => (.string p.1, p.2))
    | '[' :: r =>
        (match dropWs r with
         | ']' :: r2 => some (.array .nil, r2)
         | r2 => (pItems fuel r2).map (fun p => (.array p.1, p.2)))
    | '{' :: r =>
        (match dropWs r with
         | '}' :: r2 => some (.object .nil, r2)
         | r2 => (pMembers fuel r2).map (fun p => (.object p.1, p.2)))
    | c :: r =>
        if c = '-' || isDigitChar c then
          (parseIntPart (c :: r)).map (fun p => (.number p.1, p.2))
        else none
    | [] => none

/-- Parse one or more comma-separated array elements and the closing bracket. -/
def pItems : Nat → List Char → Option (JArr × List Char)
  | 0, _ => none
  | fuel + 1, cs =>
    match pValue fuel cs with
    | none => none
    | some (v, r) =>
      match dropWs r with
      | ',' :: r2 => (pItems fuel r2).map (fun p => (.cons v p.1, p.2))
      | ']' :: r2 => some (.cons v .nil, r2)
      | _ => none

/-- Parse one or more comma-separated object members and the closing brace. -/
def pMembers : Nat → List Char → Option (JObj × List Char)
  | 0, _ => none
  | fuel + 1, cs =>
    match dropWs cs with
    | '"' :: r =>
      (match stringBody r with
       | none => none
       | some (k, r1) =>
         match dropWs r1 with
         | ':' :: r2 =>
           (match pValue fuel r2 with
            | none => none
            | some (v, r3) =>
              match dropWs r3 with
              | ',' :: r4 => (pMembers fuel r4).map (fun p => (.cons k v p.1, p.2))
              | '}' :: r4 => some (.cons k v .nil, r4)
              | _ => none)
         | _ => none)
    | _ => none

end

/-- Models `JSON.parse` on the modelled values: the whole input must be one value,
surrounded only by insignificant whitespace. -/
def jsonParse (cs : List Char) : Option Json :=
  match pValue (2 * cs.length + 2) cs with
  | some (v, r) => if dropWs r = [] then some v else none
  | none => none

/-- A remainder that cannot extend a decimal digit run: empty or headed by a
non-digit.  Every position a rendered number occupies in rendered JSON is
followed by such a remainder. -/
def numBoundary : List Char → Bool
  | [] => true
  | c :: _ => !(isDigitChar c)

/-! ### Decimal round-trip -/

theorem charOfNat_toNat {n : Nat} (h : n < 55296) : (Char.ofNat n).toNat = n := by
  have hv : Nat.isValidChar n := Or.inl h
  rw [Char.ofNat, dif_pos hv]
  rfl

theorem digit_char_toNat {d : Nat} (h : d < 10) :
    (Char.ofNat (48 + d)).toNat = 48 + d :=
  charOfNat_toNat (by omega)

theorem digit_char_isDigit {d : Nat} (h : d < 10) :
    isDigitChar (Char.ofNat (48 + d)) = true := by
  simp only [isDigitChar, digit_char_toNat h, Bool.and_eq_true, decide_eq_true_eq]
  omega

theorem natChars_all_digits (n : Nat) : ∀ c ∈ natChars n, isDigitChar c = true := by
  intro c hc
  by_cases h : n = 0
  · subst h
    simp [natChars] at hc
    subst hc
    decide
  · simp only [natChars, if_neg h, natDigitChars, List.mem_map, List.mem_reverse] at hc
    obtain ⟨d, hd, rfl⟩ := hc
    exact digit_char_isDigit (Nat.digits_lt_base (by omega) hd)

theorem natChars_ne_nil (n : Nat) : natChars n ≠ [] := by
  by_cases h : n = 0
  · subst h; simp [natChars]
  · simp only [natChars, if_neg h, natDigitChars]
    simp [Nat.digits_ne_nil_iff_ne_zero.mpr h]

theorem natChars_head (n : Nat) :
    ∃ c t, natChars n = c :: t ∧ isDigitChar c = true := by
  match hn : natChars n with
  | [] => exact absurd hn (natChars_ne_nil n)
  | c :: t =>
      refine ⟨c, t, rfl, natChars_all_digits n c ?_⟩
      rw [hn]
      exact List.mem_cons_self c t

theorem digitSpan_append (ds rest : List Char)
    (hds : ∀ c ∈ ds, isDigitChar c = true) (hrest : numBoundary rest = true) :
    digitSpan (ds ++ rest) = (ds, rest) := by
  induction ds with
  | nil =>
      cases rest with
      | nil => rfl
      | cons c t =>
          simp only [numBoundary, Bool.not_eq_true'] at hrest
          simp [digitSpan, hrest]
  | cons c t ih =>
      have hc : isDigitChar c = true := hds c (List.mem_cons_self c t)
      have ht := ih (fun x hx => hds x (List.mem_cons_of_mem c hx))
      simp [digitSpan, hc, ht]

theorem foldr_ofDigits (L : List Nat) :
    L.foldr (fun d a => 10 * a + d) 0 = Nat.ofDigits 10 L := by
  induction L with
  | nil => simp [Nat.ofDigits]
  | cons d t ih => simp only [List.foldr_cons, ih, Nat.ofDigits_cons]; omega

theorem foldl_digit_chars (L : List Nat) : ∀ (a : Nat), (∀ d ∈ L, d < 10) →
    List.foldl (fun x c => 10 * x + (c.toNat - 48)) a
        (L.map (fun d => Char.ofNat (48 + d)))
      = List.foldl (fun x d => 10 * x + d) a L := by
  induction L with
  | nil => intro a _; rfl
  | cons d t ih =>
      intro a hL
      simp only [List.map_cons, List.foldl_cons]
      rw [digit_char_toNat (hL d (List.mem_cons_self d t)),
        ih _ (fun x hx => hL x (List.mem_cons_of_mem d hx))]
      congr 1
      omega

theorem digitsVal_natChars (n : Nat) : digitsVal (natChars n) = n := by
  by_cases h : n = 0
  · subst h; decide
  · simp only [natChars, if_neg h, natDigitChars, digitsVal]
    rw [foldl_digit_chars _ _
      (fun d hd => Nat.digits_lt_base (by omega) (List.mem_reverse.mp hd))]
    rw [List.foldl_reverse, foldr_ofDigits, Nat.ofDigits_digits]

theorem parseNatPart_natChars (n : Nat) (rest : List Char)
    (h : numBoundary rest = true) :
    parseNatPart (natChars n ++ rest) = some (n, rest) := by
  unfold parseNatPart
  rw [digitSpan_append _ _ (natChars_all_digits n) h]
  simp [natChars_ne_nil, digitsVal_natChars]

theorem parseIntPart_cons {c : Char} {t : List Char} (h : c ≠ '-') :
    parseIntPart (c :: t) = (parseNatPart (c :: t)).map (fun p => ((p.1 : Int), p.2)) := by
  rw [parseIntPart.eq_def]
  split
  · rename_i heq
    rw [List.cons.injEq] at heq
    exact absurd heq.1 h
  · rfl

theorem parseIntPart_intChars (i : Int) (rest : List Char)
    (h : numBoundary rest = true) :
    parseIntPart (intChars i ++ rest) = some (i, rest) := by
  by_cases hi : i < 0
  · simp only [intChars, if_pos hi, List.cons_append]
    show parseIntPart ('-' :: (natChars i.natAbs ++ rest)) = some (i, rest)
    rw [parseIntPart.eq_def]
    simp only [parseNatPart_natChars _ _ h, Option.map_some']
    have hni : -((i.natAbs : Int)) = i := by omega
    rw [hni]
  · obtain ⟨c, t, hct, hdig⟩ := natChars_head i.natAbs
    have hcm : c ≠ '-' := by
      intro hc
      rw [hc] at hdig
      exact absurd hdig (by decide)
    simp only [intChars, if_neg hi, hct, List.cons_append]
    rw [parseIntPart_cons hcm, ← List.cons_append, ← hct,
      parseNatPart_natChars _ _ h]
    have : ((i.natAbs : Int)) = i := by omega
    simp [this]

/-! ### String escaping round-trip -/

theorem hexVal_hexDigitChar {k : Nat} (h : k < 16) : hexVal (hexDigitChar k) = some k := by
  interval_cases k <;> decide

theorem stringBody_escape (c : Char) (rest : List Char) :
    stringBody (escapeChar c ++ rest)
      = (stringBody rest).map (fun p => (c :: p.1, p.2)) := by
  by_cases h1 : c = '"'
  · subst h1; simp [escapeChar, stringBody, escDecode]
  by_cases h2 : c = '\\'
  · subst h2; simp [escapeChar, stringBody, escDecode]
  by_cases h3 : c = '\n'
  · subst h3; simp [escapeChar, stringBody, escDecode]
  by_cases h4 : c = '\r'
  · subst h4; simp [escapeChar, stringBody, escDecode]
  by_cases h5 : c = '\t'
  · subst h5; simp [escapeChar, stringBody, escDecode]
  by_cases h6 : c = Char.ofNat 8
  · subst h6; simp [escapeChar, stringBody, escDecode]
  by_cases h7 : c = Char.ofNat 12
  · subst h7; simp [escapeChar, stringBody, escDecode]
  by_cases h8 : c.toNat < 32
  · simp only [escapeChar, if_neg h1, if_neg h2, if_neg h3, if_neg h4, if_neg h5,
      if_neg h6, if_neg h7, if_pos h8, List.cons_append]
    have hdiv : c.toNat / 16 < 16 := by omega
    have hmod : c.toNat % 16 < 16 := by omega
    rw [stringBody]
    rw [hex4]
    rw [show hexVal '0' = some 0 from rfl]
    rw [hexVal_hexDigitChar hdiv, hexVal_hexDigitChar hmod]
    have harith : 16 * (16 * (16 * 0 + 0) + c.toNat / 16) + c.toNat % 16 = c.toNat := by
      omega
    simp only [Option.bind_eq_bind, Option.some_bind, harith, Char.ofNat_toNat,
      List.nil_append]
  · simp only [escapeChar, if_neg h1, if_neg h2, if_neg h3, if_neg h4, if_neg h5,
      if_neg h6, if_neg h7, if_neg h8, List.singleton_append]
    rw [stringBody.eq_def]
    split
    · rename_i heq; rw [List.cons.injEq] at heq; exact absurd heq.1 h1
    · rename_i heq; rw [List.cons.injEq] at heq; exact absurd heq.1 h2
    · rename_i heq; rw [List.cons.injEq] at heq; exact absurd heq.1 h2
    · rename_i heq
      rw [List.cons.injEq] at heq
      obtain ⟨hc, hr⟩ := heq
      subst hc
      subst hr
      rw [if_neg h8]
    · rename_i heq; exact absurd heq (List.cons_ne_nil c rest)

theorem stringBody_escList (s : List Char) : ∀ (rest : List Char),
    stringBody (escList s ++ '"' :: rest) = some (s, rest) := by
  induction s with
  | nil => intro rest; simp [escList, stringBody]
  | cons c t ih =>
      intro rest
      rw [escList, List.append_assoc, stringBody_escape, ih]
      rfl

/-! ### Rendered JSON never contains the delimiter -/

theorem digit_ne_delim {c : Char} (h : isDigitChar c = true) : c ≠ msgDelimiter := by
  intro he
  subst he
  exact absurd h (by decide)

theorem natChars_no_delim (n : Nat) : ∀ ch ∈ natChars n, ch ≠ msgDelimiter :=
  fun ch hch => digit_ne_delim (natChars_all_digits n ch hch)

theorem intChars_no_delim (i : Int) : ∀ ch ∈ intChars i, ch ≠ msgDelimiter := by
  intro ch hch
  unfold intChars at hch
  split at hch
  · rcases List.mem_cons.mp hch with rfl | hm
    · decide
    · exact natChars_no_delim _ _ hm
  · exact natChars_no_delim _ _ hch

theorem hexDigitChar_ne_delim {k : Nat} (h : k < 16) : hexDigitChar k ≠ msgDelimiter := by
  interval_cases k <;> decide

theorem escapeChar_no_delim (c : Char) : ∀ ch ∈ escapeChar c, ch ≠ msgDelimiter := by
  intro ch hch
  unfold escapeChar at hch
  split at hch
  · rcases hch with _ | ⟨_, _ | ⟨_, h⟩⟩ <;> first | decide | cases ‹ch ∈ []›
  split at hch
  · rcases hch with _ | ⟨_, _ | _⟩ <;> first | decide | cases ‹ch ∈ []›
  split at hch
  · rcases hch with _ | ⟨_, _ | _⟩ <;> first | decide | cases ‹ch ∈ []›
  split at hch
  · rcases hch with _ | ⟨_, _ | _⟩ <;> first | decide | cases ‹ch ∈ []›
  split at hch
  · rcases hch with _ | ⟨_, _ | _⟩ <;> first | decide | cases ‹ch ∈ []›
  split at hch
  · rcases hch with _ | ⟨_, _ | _⟩ <;> first | decide | cases ‹ch ∈ []›
  split at hch
  · rcases hch with _ | ⟨_, _ | _⟩ <;> first | decide | cases ‹ch ∈ []›
  split at hch
  · rename_i hlt
    simp only [List.mem_cons, List.not_mem_nil, or_false] at hch
    rcases hch with rfl | rfl | rfl | rfl | rfl | rfl
    · decide
    · decide
    · decide
    · decide
    · exact hexDigitChar_ne_delim (by omega)
    · exact hexDigitChar_ne_delim (by omega)
  · rename_i hge
    simp only [List.mem_singleton] at hch
    subst hch
    intro he
    subst he
    exact hge (by decide)

theorem escList_no_delim (s : List Char) : ∀ ch ∈ escList s, ch ≠ msgDelimiter := by
  induction s with
  | nil => intro ch hch; cases hch
  | cons c t ih =>
      intro ch hch
      rw [escList] at hch
      rcases List.mem_append.mp hch with hm | hm
      · exact escapeChar_no_delim c ch hm
      · exact ih ch hm

mutual

theorem stringify_no_delim : ∀ (v : Json), ∀ ch ∈ jsonStringify v, ch ≠ msgDelimiter
  | .null => by
      intro ch h
      simp only [jsonStringify, List.mem_cons, List.not_mem_nil, or_false] at h
      rcases h with rfl | rfl | rfl | rfl <;> decide
  | .boolean true => by
      intro ch h
      simp only [jsonStringify, List.mem_cons, List.not_mem_nil, or_false] at h
      rcases h with rfl | rfl | rfl | rfl <;> decide
  | .boolean false => by
      intro ch h
      simp only [jsonStringify, List.mem_cons, List.not_mem_nil, or_false] at h
      rcases h with rfl | rfl | rfl | rfl | rfl <;> decide
  | .number i => by
      intro ch h
      exact intChars_no_delim i ch (by simpa [jsonStringify] using h)
  | .string s => by
      intro ch h
      simp only [jsonStringify, List.mem_cons, List.mem_append,
        List.mem_singleton, List.not_mem_nil, or_false] at h
      rcases h with rfl | hm | rfl
      · decide
      · exact escList_no_delim s ch hm
      · decide
  | .array xs => by
      intro ch h
      simp only [jsonStringify, List.mem_cons, List.mem_append,
        List.mem_singleton, List.not_mem_nil, or_false] at h
      rcases h with rfl | hm | rfl
      · decide
      · exact stringifyArr_no_delim xs ch hm
      · decide
  | .object ms => by
      intro ch h
      simp only [jsonStringify, List.mem_cons, List.mem_append,
        List.mem_singleton, List.not_mem_nil, or_false] at h
      rcases h with rfl | hm | rfl
      · decide
      · exact stringifyObj_no_delim ms ch hm
      · decide

theorem stringifyArr_no_delim : ∀ (xs : JArr), ∀ ch ∈ stringifyArr xs, ch ≠ msgDelimiter
  | .nil => by intro ch h; rw [stringifyArr] at h; cases h
  | .cons v .nil => by
      intro ch h
      rw [stringifyArr] at h
      exact stringify_no_delim v ch h
  | .cons v (.cons w rest) => by
      intro ch h
      rw [stringifyArr] at h
      rcases List.mem_append.mp h with hm | hm
      · exact stringify_no_delim v ch hm
      · rcases List.mem_cons.mp hm with rfl | hm2
        · decide
        · exact stringifyArr_no_delim (.cons w rest) ch hm2

theorem stringifyObj_no_delim : ∀ (ms : JObj), ∀ ch ∈ stringifyObj ms, ch ≠ msgDelimiter
  | .nil => by intro ch h; rw [stringifyObj] at h; cases h
  | .cons k v .nil => by
      intro ch h
      rw [stringifyObj] at h
      rcases List.mem_cons.mp h with rfl | hm
      · decide
      rcases List.mem_append.mp hm with hk | hm2
      · exact escList_no_delim k ch hk
      rcases List.mem_cons.mp hm2 with rfl | hm3
      · decide
      rcases List.mem_cons.mp hm3 with rfl | hm4
      · decide
      · exact stringify_no_delim v ch hm4
  | .cons k v (.cons k2 v2 rest) => by
      intro ch h
      rw [stringifyObj] at h
      rcases List.mem_append.mp h with hm | hm
      · rcases List.mem_cons.mp hm with rfl | hm1
        · decide
        rcases List.mem_append.mp hm1 with hk | hm2
        · exact escList_no_delim k ch hk
        rcases List.mem_cons.mp hm2 with rfl | hm3
        · decide
        rcases List.mem_cons.mp hm3 with rfl | hm4
        · decide
        · exact stringify_no_delim v ch hm4
      · rcases List.mem_cons.mp hm with rfl | hm2
        · decide
        · exact stringifyObj_no_delim (.cons k2 v2 rest) ch hm2

end

/-! ### Head characters of rendered values -/

theorem digit_facts {c : Char} (h : isDigitChar c = true) :
    48 ≤ c.toNat ∧ c.toNat ≤ 57 := by
  simpa [isDigitChar, Bool.and_eq_true, decide_eq_true_eq] using h

theorem char_ne_of_toNat {c d : Char} (h : c.toNat ≠ d.toNat) : c ≠ d :=
  fun he => h (by rw [he])

theorem digit_not_ws {c : Char} (h : isDigitChar c = true) : jsonWs c = false := by
  obtain ⟨h1, h2⟩ := digit_facts h
  have hs : c ≠ ' ' := by
    apply char_ne_of_toNat; intro he; rw [he] at h1 h2; revert h1 h2; decide
  have htb : c ≠ '\t' := by
    apply char_ne_of_toNat; intro he; rw [he] at h1 h2; revert h1 h2; decide
  have hn : c ≠ '\n' := by
    apply char_ne_of_toNat; intro he; rw [he] at h1 h2; revert h1 h2; decide
  have hr : c ≠ '\r' := by
    apply char_ne_of_toNat; intro he; rw [he] at h1 h2; revert h1 h2; decide
  simp [jsonWs, hs, htb, hn, hr]

theorem digit_head_not {c : Char} (h : isDigitChar c = true) :
    c ≠ 'n' ∧ c ≠ 't' ∧ c ≠ 'f' ∧ c ≠ '"' ∧ c ≠ '[' ∧ c ≠ '{'
      ∧ c ≠ ']' ∧ c ≠ '}' ∧ c ≠ ',' ∧ c ≠ '-' ∧ c ≠ ':' := by
  obtain ⟨h1, h2⟩ := digit_facts h
  refine ⟨?_, ?_, ?_, ?_, ?_, ?_, ?_, ?_, ?_, ?_, ?_⟩ <;>
    (apply char_ne_of_toNat; intro he; rw [he] at h1 h2; revert h1 h2; decide)

theorem stringify_head (v : Json) :
    ∃ c t, jsonStringify v = c :: t ∧ jsonWs c = false
      ∧ c ≠ ']' ∧ c ≠ '}' ∧ c ≠ ',' := by
  cases v with
  | null => exact ⟨'n', _, rfl, by decide, by decide, by decide, by decide⟩
  | boolean b =>
      cases b with
      | true => exact ⟨'t', _, rfl, by decide, by decide, by decide, by decide⟩
      | false => exact ⟨'f', _, rfl, by decide, by decide, by decide, by decide⟩
  | number i =>
      by_cases hi : i < 0
      · refine ⟨'-', natChars i.natAbs, ?_, by decide, by decide, by decide, by decide⟩
        simp [jsonStringify, intChars, hi]
      · obtain ⟨c, t, hct, hdig⟩ := natChars_head i.natAbs
        obtain ⟨_, _, _, _, _, _, hrb, hcb, hcm, _, _⟩ := digit_head_not hdig
        refine ⟨c, t, ?_, digit_not_ws hdig, hrb, hcb, hcm⟩
        simp [jsonStringify, intChars, hi, hct]
  | string s => exact ⟨'"', _, rfl, by decide, by decide, by decide, by decide⟩
  | array xs => exact ⟨'[', _, rfl, by decide, by decide, by decide, by decide⟩
  | object ms => exact ⟨'{', _, rfl, by decide, by decide, by decide, by decide⟩

theorem stringify_length_pos (v : Json) : 0 < (jsonStringify v).length := by
  obtain ⟨c, t, hv, _⟩ := stringify_head v
  rw [hv]
  simp

theorem dropWs_of_head {c : Char} {t : List Char} (h : jsonWs c = false) :
    dropWs (c :: t) = c :: t := by
  simp [dropWs, h]

theorem dropWs_stringify (v : Json) (x : List Char) :
    dropWs (jsonStringify v ++ x) = jsonStringify v ++ x := by
  obtain ⟨c, t, hv, hws, _, _, _⟩ := stringify_head v
  rw [hv, List.cons_append, dropWs_of_head hws]

theorem stringifyArr_cons_head (w : Json) (ys : JArr) :
    ∃ c t, stringifyArr (.cons w ys) = c :: t ∧ jsonWs c = false
      ∧ c ≠ ']' ∧ c ≠ '}' ∧ c ≠ ',' := by
  obtain ⟨c, t, hw, hp⟩ := stringify_head w
  cases ys with
  | nil => exact ⟨c, t, by rw [stringifyArr, hw], hp⟩
  | cons y ys2 =>
      refine ⟨c, t ++ ',' :: stringifyArr (.cons y ys2), ?_, hp⟩
      rw [stringifyArr, hw, List.cons_append]

theorem stringifyObj_cons_shape (k : List Char) (v : Json) (ms : JObj) :
    ∃ x, stringifyObj (.cons k v ms) = '"' :: x := by
  cases ms with
  | nil => exact ⟨_, rfl⟩
  | cons k2 v2 ms2 => exact ⟨_, by rw [stringifyObj, List.cons_append]⟩

/-! ### Parser dispatch on rendered input -/

theorem numBoundary_comma (r : List Char) : numBoundary (',' :: r) = true := rfl

theorem numBoundary_rb (r : List Char) : numBoundary (']' :: r) = true := rfl

theorem numBoundary_cb (r : List Char) : numBoundary ('}' :: r) = true := rfl

theorem pValue_number_head (fuel : Nat) {c : Char} (t : List Char)
    (hws : jsonWs c = false) (hn : c ≠ 'n') (ht : c ≠ 't') (hf : c ≠ 'f')
    (hq : c ≠ '"') (hb : c ≠ '[') (hbr : c ≠ '{')
    (hg : (c = '-' || isDigitChar c) = true) :
    pValue (fuel + 1) (c :: t)
      = (parseIntPart (c :: t)).map (fun p => (Json.number p.1, p.2)) := by
  rw [pValue, dropWs_of_head hws]
  simp [hn, ht, hf, hq, hb, hbr, hg]

theorem pValue_array_cons (f : Nat) (w : Json) (ys : JArr) (rest : List Char) :
    pValue (f + 1) ('[' :: (stringifyArr (.cons w ys) ++ ']' :: rest))
      = (pItems f (stringifyArr (.cons w ys) ++ ']' :: rest)).map
          (fun p => (Json.array p.1, p.2)) := by
  obtain ⟨c, t, hsa, hws, hrb, hcb, hcm⟩ := stringifyArr_cons_head w ys
  rw [pValue, dropWs_of_head (by decide), hsa, List.cons_append]
  simp [dropWs_of_head hws, hrb]

theorem pValue_object_cons (f : Nat) (k : List Char) (v : Json) (ms : JObj)
    (rest : List Char) :
    pValue (f + 1) ('{' :: (stringifyObj (.cons k v ms) ++ '}' :: rest))
      = (pMembers f (stringifyObj (.cons k v ms) ++ '}' :: rest)).map
          (fun p => (Json.object p.1, p.2)) := by
  obtain ⟨x, hso⟩ := stringifyObj_cons_shape k v ms
  rw [pValue, dropWs_of_head (by decide), hso, List.cons_append]
  simp [dropWs_of_head (show jsonWs '"' = false by decide)]

theorem pItems_succ (f : Nat) (cs : List Char) :
    pItems (f + 1) cs
      = (match pValue f cs with
         | none => none
         | some (v, r) =>
           match dropWs r with
           | ',' :: r2 => (pItems f r2).map (fun p => (JArr.cons v p.1, p.2))
           | ']' :: r2 => some (JArr.cons v .nil, r2)
           | _ => none) := by
  rw [pItems]

theorem pMembers_succ (f : Nat) (cs : List Char) :
    pMembers (f + 1) cs
      = (match dropWs cs with
         | '"' :: r =>
           (match stringBody r with
            | none => none
            | some (k, r1) =>
              match dropWs r1 with
              | ':' :: r2 =>
                (match pValue f r2 with
                 | none => none
                 | some (v, r3) =>
                   match dropWs r3 with
                   | ',' :: r4 => (pMembers f r4).map (fun p => (JObj.cons k v p.1, p.2))
                   | '}' :: r4 => some (JObj.cons k v .nil, r4)
                   | _ => none)
              | _ => none)
         | _ => none) := by
  rw [pMembers]

/-! ### The codec round-trip -/

mutual

theorem rt_value : ∀ (v : Json) (fuel : Nat) (rest : List Char),
    (jsonStringify v).length < fuel → numBoundary rest = true →
    pValue fuel (jsonStringify v ++ rest) = some (v, rest)
  | .null, fuel, rest, hf, _ => by
      cases fuel with
      | zero => simp [jsonStringify] at hf
      | succ f => simp [jsonStringify, pValue, dropWs, jsonWs]
  | .boolean b, fuel, rest, hf, _ => by
      cases fuel with
      | zero => cases b <;> simp [jsonStringify] at hf
      | succ f => cases b <;> simp [jsonStringify, pValue, dropWs, jsonWs]
  | .number i, fuel, rest, hf, hb => by
      cases fuel with
      | zero => exact absurd hf (Nat.not_lt_zero _)
      | succ f =>
          by_cases hi : i < 0
          · have harg : jsonStringify (.number i) ++ rest
                = '-' :: (natChars i.natAbs ++ rest) := by
              simp [jsonStringify, intChars, hi]
            have hback : ('-' : Char) :: (natChars i.natAbs ++ rest)
                = intChars i ++ rest := by
              simp [intChars, hi]
            rw [harg, pValue_number_head f _ (by decide) (by decide) (by decide)
              (by decide) (by decide) (by decide) (by decide) (by decide),
              hback, parseIntPart_intChars i rest hb]
            rfl
          · obtain ⟨c, t, hct, hdig⟩ := natChars_head i.natAbs
            obtain ⟨hn, ht, hf2, hq, hlb, hlc, _, _, _, _, _⟩ := digit_head_not hdig
            have harg : jsonStringify (.number i) ++ rest = c :: (t ++ rest) := by
              simp [jsonStringify, intChars, hi, hct]
            have hback : c :: (t ++ rest) = intChars i ++ rest := by
              simp [intChars, hi, hct]
            rw [harg, pValue_number_head f _ (digit_not_ws hdig) hn ht hf2 hq hlb hlc
              (by simp [hdig]), hback, parseIntPart_intChars i rest hb]
            rfl
  | .string s, fuel, rest, hf, _ => by
      cases fuel with
      | zero => exact absurd hf (Nat.not_lt_zero _)
      | succ f =>
          have harg : jsonStringify (.string s) ++ rest
              = '"' :: (escList s ++ '"' :: rest) := by
            simp [jsonStringify]
          rw [harg, pValue, dropWs_of_head (by decide)]
          simp [stringBody_escList]
  | .array .nil, fuel, rest, hf, _ => by
      cases fuel with
      | zero => exact absurd hf (Nat.not_lt_zero _)
      | succ f => simp [jsonStringify, stringifyArr, pValue, dropWs, jsonWs]
  | .array (.cons w ys), fuel, rest, hf, _ => by
      cases fuel with
      | zero => exact absurd hf (Nat.not_lt_zero _)
      | succ f =>
          have harg : jsonStringify (.array (.cons w ys)) ++ rest
              = '[' :: (stringifyArr (.cons w ys) ++ ']' :: rest) := by
            simp [jsonStringify]
          have hlen : (stringifyArr (.cons w ys)).length + 1 < f := by
            simp only [jsonStringify, List.length_cons, List.length_append,
              List.length_singleton] at hf
            omega
          rw [harg, pValue_array_cons, rt_items w ys f rest hlen]
          rfl
  | .object .nil, fuel, rest, hf, _ => by
      cases fuel with
      | zero => exact absurd hf (Nat.not_lt_zero _)
      | succ f => simp [jsonStringify, stringifyObj, pValue, dropWs, jsonWs]
  | .object (.cons k v ms), fuel, rest, hf, _ => by
      cases fuel with
      | zero => exact absurd hf (Nat.not_lt_zero _)
      | succ f =>
          have harg : jsonStringify (.object (.cons k v ms)) ++ rest
              = '{' :: (stringifyObj (.cons k v ms) ++ '}' :: rest) := by
            simp [jsonStringify]
          have hlen : (stringifyObj (.cons k v ms)).length + 1 < f := by
            simp only [jsonStringify, List.length_cons, List.length_append,
              List.length_singleton] at hf
            omega
          rw [harg, pValue_object_cons, rt_members k v ms f rest hlen]
          rfl
termination_by v _ _ _ _ => sizeOf v

theorem rt_items : ∀ (v : Json) (xs : JArr) (fuel : Nat) (rest : List Char),
    (stringifyArr (.cons v xs)).length + 1 < fuel →
    pItems fuel (stringifyArr (.cons v xs) ++ ']' :: rest) = some (.cons v xs, rest)
  | v, .nil, fuel, rest, hf => by
      cases fuel with
      | zero => exact absurd hf (Nat.not_lt_zero _)
      | succ f =>
          have hsa : stringifyArr (.cons v .nil) = jsonStringify v := by
            rw [stringifyArr]
          rw [hsa] at hf
          have hlen : (jsonStringify v).length < f := by omega
          rw [hsa, pItems_succ, rt_value v f (']' :: rest) hlen (numBoundary_rb rest)]
          simp [dropWs_of_head (show jsonWs ']' = false by decide)]
  | v, .cons w ys, fuel, rest, hf => by
      cases fuel with
      | zero => exact absurd hf (Nat.not_lt_zero _)
      | succ f =>
          have hvpos := stringify_length_pos v
          have hwpos := stringify_length_pos w
          rw [stringifyArr] at hf
          simp only [List.length_append, List.length_cons] at hf
          have harg : stringifyArr (.cons v (.cons w ys)) ++ ']' :: rest
              = jsonStringify v
                  ++ ',' :: (stringifyArr (.cons w ys) ++ ']' :: rest) := by
            rw [stringifyArr, List.append_assoc, List.cons_append]
          have hlen1 : (jsonStringify v).length < f := by omega
          have hlen2 : (stringifyArr (.cons w ys)).length + 1 < f := by omega
          rw [harg, pItems_succ,
            rt_value v f (',' :: (stringifyArr (.cons w ys) ++ ']' :: rest)) hlen1
              (numBoundary_comma _)]
          simp only [dropWs_of_head (show jsonWs ',' = false by decide)]
          rw [rt_items w ys f rest hlen2]
          rfl
termination_by v xs _ _ _ => sizeOf v + sizeOf xs

theorem rt_members : ∀ (k : List Char) (v : Json) (ms : JObj) (fuel : Nat)
    (rest : List Char),
    (stringifyObj (.cons k v ms)).length + 1 < fuel →
    pMembers fuel (stringifyObj (.cons k v ms) ++ '}' :: rest)
      = some (.cons k v ms, rest)
  | k, v, .nil, fuel, rest, hf => by
      cases fuel with
      | zero => exact absurd hf (Nat.not_lt_zero _)
      | succ f =>
          rw [stringifyObj] at hf
          simp only [List.length_cons, List.length_append] at hf
          have hlen : (jsonStringify v).length < f := by omega
          have harg : stringifyObj (.cons k v .nil) ++ '}' :: rest
              = '"' :: (escList k ++ '"' :: ':' :: (jsonStringify v ++ '}' :: rest)) := by
            rw [stringifyObj]
            simp [List.append_assoc]
          rw [harg, pMembers_succ, dropWs_of_head (by decide)]
          simp only [stringBody_escList]
          rw [dropWs_of_head (show jsonWs ':' = false by decide)]
          simp only [rt_value v f ('}' :: rest) hlen (numBoundary_cb rest)]
          simp [dropWs_of_head (show jsonWs '}' = false by decide)]
  | k, v, .cons k2 v2 ms2, fuel, rest, hf => by
      cases fuel with
      | zero => exact absurd hf (Nat.not_lt_zero _)
      | succ f =>
          have hvpos := stringify_length_pos v
          rw [stringifyObj] at hf
          simp only [List.length_append, List.length_cons] at hf
          have hlen1 : (jsonStringify v).length < f := by omega
          have hlen2 : (stringifyObj (.cons k2 v2 ms2)).length + 1 < f := by omega
          have harg : stringifyObj (.cons k v (.cons k2 v2 ms2)) ++ '}' :: rest
              = '"' :: (escList k ++ '"' :: ':'
                  :: (jsonStringify v
                    ++ ',' :: (stringifyObj (.cons k2 v2 ms2) ++ '}' :: rest))) := by
            rw [stringifyObj]
            simp [List.append_assoc]
          rw [harg, pMembers_succ, dropWs_of_head (by decide)]
          simp only [stringBody_escList]
          rw [dropWs_of_head (show jsonWs ':' = false by decide)]
          simp only [rt_value v f
            (',' :: (stringifyObj (.cons k2 v2 ms2) ++ '}' :: rest)) hlen1
            (numBoundary_comma _)]
          simp only [dropWs_of_head (show jsonWs ',' = false by decide)]
          rw [rt_members k2 v2 ms2 f rest hlen2]
          rfl
termination_by _ v ms _ _ _ => sizeOf v + sizeOf ms

end

/-- Parsing a rendered value recovers it exactly. -/
theorem jsonParse_stringify (v : Json) : jsonParse (jsonStringify v) = some v := by
  have h := rt_value v (2 * (jsonStringify v).length + 2) [] (by omega) rfl
  rw [List.append_nil] at h
  rw [jsonParse, h]
  rfl

/-! ### The per-connection de-framer of `startTcpServer` (src/communication.ts)

The `data` handler appends the chunk to the connection's string buffer and
then, while `buffer.indexOf(P2P_MESSAGE_DELIMITER) > -1`, cuts off the text
before the delimiter, drops the delimiter, and — when the fragment is nonempty
— parses it, dispatching `onDataCallback` on success and logging the parse
error on failure. -/

/-- Split a buffer at its first delimiter: the text before it and the text
after it, or `none` if no delimiter is present (`indexOf` returning -1). -/
def splitAtDelim : List Char → Option (List Char × List Char)
  | [] => none
  | c :: cs =>
      if c = msgDelimiter then some ([], cs)
      else (splitAtDelim cs).map (fun p => (c :: p.1, p.2))

/-- Outcome of draining a buffer: the values dispatched to `onDataCallback`
in order, the number of parse errors logged, and the bytes left buffered. -/
structure DrainResult where
  messages : List Json
  parseErrors : Nat
  buffer : List Char

theorem splitAtDelim_length : ∀ {buf frag rest : List Char},
    splitAtDelim buf = some (frag, rest) → rest.length < buf.length := by
  intro buf
  induction buf with
  | nil => intro frag rest h; cases h
  | cons c cs ih =>
      intro frag rest h
      rw [splitAtDelim] at h
      by_cases hc : c = msgDelimiter
      · rw [if_pos hc] at h
        cases h
        simp
      · rw [if_neg hc] at h
        match hs : splitAtDelim cs with
        | none => rw [hs] at h; cases h
        | some (f2, r2) =>
            rw [hs] at h
            cases h
            have := ih hs
            simp only [List.length_cons]
            omega

/-- The while-loop of the `data` handler, run to completion on a buffer. -/
def drainBuffer (buf : List Char) : DrainResult :=
  match h : splitAtDelim buf with
  | none => ⟨[], 0, buf⟩
  | some (frag, rest) =>
      let r := drainBuffer rest
      if frag = [] then r
      else
        match jsonParse frag with
        | some v => ⟨v :: r.messages, r.parseErrors, r.buffer⟩
        | none => ⟨r.messages, r.parseErrors + 1, r.buffer⟩
termination_by buf.length
decreasing_by exact splitAtDelim_length h

/-- The `data` event handler: append the chunk to the connection's buffer
and drain every complete frame. -/
def onDataEvent (buffer chunk : List Char) : DrainResult :=
  drainBuffer (buffer ++ chunk)

theorem splitAtDelim_no_delim {buf : List Char} (h : msgDelimiter ∉ buf) :
    splitAtDelim buf = none := by
  induction buf with
  | nil => rfl
  | cons c cs ih =>
      rw [splitAtDelim,
        if_neg (show c ≠ msgDelimiter from
          fun hc => h (by rw [← hc]; exact List.mem_cons_self c cs)),
        ih (fun hm => h (List.mem_cons_of_mem c hm))]
      rfl

theorem splitAtDelim_frame (frag rest : List Char) (h : msgDelimiter ∉ frag) :
    splitAtDelim (frag ++ msgDelimiter :: rest) = some (frag, rest) := by
  induction frag with
  | nil => simp [splitAtDelim]
  | cons c cs ih =>
      rw [List.cons_append, splitAtDelim,
        if_neg (show c ≠ msgDelimiter from
          fun hc => h (by rw [← hc]; exact List.mem_cons_self c cs)),
        ih (fun hm => h (List.mem_cons_of_mem c hm))]
      rfl

theorem drainBuffer_no_delim {buf : List Char} (h : msgDelimiter ∉ buf) :
    drainBuffer buf = ⟨[], 0, buf⟩ := by
  rw [drainBuffer, splitAtDelim_no_delim h]

theorem drainBuffer_frame (frag rest : List Char) (h : msgDelimiter ∉ frag) :
    drainBuffer (frag ++ msgDelimiter :: rest)
      = (let r := drainBuffer rest
         if frag = [] then r
         else
           match jsonParse frag with
           | some v => ⟨v :: r.messages, r.parseErrors, r.buffer⟩
           | none => ⟨r.messages, r.parseErrors + 1, r.buffer⟩) := by
  rw [drainBuffer, splitAtDelim_frame frag rest h]

theorem drainBuffer_good_frame (v : Json) (rest : List Char) :
    drainBuffer (jsonStringify v ++ msgDelimiter :: rest)
      = ⟨v :: (drainBuffer rest).messages, (drainBuffer rest).parseErrors,
          (drainBuffer rest).buffer⟩ := by
  have hnd : msgDelimiter ∉ jsonStringify v :=
    fun hm => stringify_no_delim v msgDelimiter hm rfl
  have hne : jsonStringify v ≠ [] := by
    obtain ⟨c, t, hv, _⟩ := stringify_head v
    rw [hv]
    exact List.cons_ne_nil c t
  rw [drainBuffer_frame _ _ hnd]
  simp only [if_neg hne, jsonParse_stringify v]

/-! ### Sockets and `sendMessage` (src/communication.ts) -/

/-- A TCP socket handle with the flags `sendMessage` and the connection pool
inspect. -/
structure Socket where
  sockId : Nat
  destroyed : Bool
  writable : Bool
deriving DecidableEq

/-- Models `sendMessage`: refuse a destroyed or non-writable socket with `false`;
otherwise write the serialized payload followed by the delimiter and return
`true`.  The result carries the bytes written to the wire. -/
def sendMessage (socket : Socket) (messageObject : Json) : Bool × List Char :=
  if socket.destroyed || !socket.writable then (false, [])
  else (true, jsonStringify messageObject ++ [msgDelimiter])

/-- A concrete greeting payload, as sent on `peerUp` by the p2p service. -/
def greetingMsg : Json :=
  .object (.cons ['t','y','p','e'] (.string ['G','R','E','E','T','I','N','G'])
    (.cons ['f','r','o','m'] (.string ['X']) .nil))

/-- C1: for every JSON-serializable value, framing by `sendMessage`
(`JSON.stringify` plus the single newline delimiter) followed by the
receiver's per-connection buffer logic yields a structurally equal parsed
value in exactly one `onMessage` dispatch, and the serialized form never
contains a raw delimiter, so the frame boundary is unambiguous. -/
theorem framing_roundtrip_C1 (v : Json) (socket : Socket)
    (hd : socket.destroyed = false) (hw : socket.writable = true) :
    sendMessage socket v = (true, jsonStringify v ++ [msgDelimiter])
    ∧ (∀ ch ∈ jsonStringify v, ch ≠ msgDelimiter)
    ∧ onDataEvent [] (sendMessage socket v).2 = ⟨[v], 0, []⟩ := by
  have hsend : sendMessage socket v = (true, jsonStringify v ++ [msgDelimiter]) := by
    simp [sendMessage, hd, hw]
  refine ⟨hsend, stringify_no_delim v, ?_⟩
  rw [hsend]
  show drainBuffer ([] ++ (jsonStringify v ++ [msgDelimiter])) = _
  rw [List.nil_append,
    show jsonStringify v ++ [msgDelimiter]
      = jsonStringify v ++ msgDelimiter :: [] from rfl,
    drainBuffer_good_frame v [], drainBuffer_no_delim (List.not_mem_nil _)]

theorem framing_roundtrip_C1_witness :
    sendMessage ⟨0, false, true⟩ greetingMsg
        = (true, jsonStringify greetingMsg ++ [msgDelimiter])
      ∧ (∀ ch ∈ jsonStringify greetingMsg, ch ≠ msgDelimiter)
      ∧ onDataEvent [] (sendMessage ⟨0, false, true⟩ greetingMsg).2
          = ⟨[greetingMsg], 0, []⟩ :=
  framing_roundtrip_C1 greetingMsg ⟨0, false, true⟩ rfl rfl

/-- C7: one `data` event carrying two complete delimiter-terminated frames
dispatches exactly two `onMessage` calls, in stream order, and partial
trailing bytes stay buffered. -/
theorem two_frames_one_chunk_C7 (v1 v2 : Json) (trailing : List Char)
    (hp : msgDelimiter ∉ trailing) :
    onDataEvent []
        ((jsonStringify v1 ++ [msgDelimiter])
          ++ (jsonStringify v2 ++ [msgDelimiter]) ++ trailing)
      = ⟨[v1, v2], 0, trailing⟩ := by
  unfold onDataEvent
  rw [List.nil_append]
  have harr : (jsonStringify v1 ++ [msgDelimiter])
        ++ (jsonStringify v2 ++ [msgDelimiter]) ++ trailing
      = jsonStringify v1
          ++ msgDelimiter :: (jsonStringify v2 ++ msgDelimiter :: trailing) := by
    simp [List.append_assoc]
  rw [harr, drainBuffer_good_frame, drainBuffer_good_frame,
    drainBuffer_no_delim hp]

theorem two_frames_one_chunk_C7_witness :
    onDataEvent []
        ((jsonStringify (.number 1) ++ [msgDelimiter])
          ++ (jsonStringify (.boolean true) ++ [msgDelimiter]) ++ ['{'])
      = ⟨[.number 1, .boolean true], 0, ['{']⟩ :=
  two_frames_one_chunk_C7 (.number 1) (.boolean true) ['{'] (by decide)

/-- C6 counterexample: the empty fragment before a delimiter contains no
parseable JSON, yet the handler (`if (jsonString)`) skips it silently — it is
dropped without any parse error being logged, so "drops the fragment and logs
the parse error" fails for this fragment. -/
theorem empty_fragment_silent_C6 :
    jsonParse [] = none ∧ onDataEvent [] [msgDelimiter] = ⟨[], 0, []⟩ := by
  refine ⟨rfl, ?_⟩
  unfold onDataEvent
  rw [List.nil_append,
    show [msgDelimiter] = [] ++ msgDelimiter :: [] from rfl,
    drainBuffer_frame [] [] (List.not_mem_nil _)]
  simp [drainBuffer_no_delim (List.not_mem_nil _)]

/-- C6 (amended): every nonempty fragment before a delimiter that is not
parseable JSON is dropped with its parse error logged exactly once, the
handler neither closes the stream nor throws, and a subsequent well-formed
delimiter-terminated frame on the same stream is still delivered. -/
theorem malformed_fragment_C6 (frag : List Char) (hne : frag ≠ [])
    (hnd : msgDelimiter ∉ frag) (hbad : jsonParse frag = none) (v : Json) :
    onDataEvent [] (frag ++ msgDelimiter :: (jsonStringify v ++ [msgDelimiter]))
      = ⟨[v], 1, []⟩ := by
  unfold onDataEvent
  rw [List.nil_append, drainBuffer_frame _ _ hnd]
  simp only [if_neg hne, hbad,
    show jsonStringify v ++ [msgDelimiter]
      = jsonStringify v ++ msgDelimiter :: [] from rfl,
    drainBuffer_good_frame, drainBuffer_no_delim (List.not_mem_nil _)]

theorem malformed_fragment_C6_witness :
    onDataEvent []
        (['x'] ++ msgDelimiter :: (jsonStringify .null ++ [msgDelimiter]))
      = ⟨[.null], 1, []⟩ :=
  malformed_fragment_C6 ['x'] (by decide) (by decide) rfl .null

/-! ### The peer registry (src/peerManager.ts)

`PeerManager.peers` is a JavaScript `Map` keyed by the service fqdn; we model
it as an association list whose `set` replaces in place and whose `delete`
removes the key. -/

/-- A discovered bonjour service record, restricted to the fields the p2p
core reads.  An empty `fqdn` models a falsy `service.fqdn`. -/
structure Service where
  fqdn : String
  name : String
  host : String
  port : Nat
deriving DecidableEq

def mapGet {α : Type} : List (String × α) → String → Option α
  | [], _ => none
  | (k2, v) :: rest, k => if k2 = k then some v else mapGet rest k

def mapSet {α : Type} : List (String × α) → String → α → List (String × α)
  | [], k, v => [(k, v)]
  | (k2, v2) :: rest, k, v =>
      if k2 = k then (k, v) :: rest else (k2, v2) :: mapSet rest k v

def mapDrop {α : Type} (m : List (String × α)) (k : String) : List (String × α) :=
  m.filter (fun p => !(p.1 = k))

abbrev PeerMap := List (String × Service)

/-- Models `PeerManager.addPeer`: a record with a falsy `fqdn` is rejected as a
no-op; otherwise the record is stored under its fqdn (replacing any previous
record) and `peerUp` is emitted only when the key was absent.  Returns the
new registry and the emitted `peerUp` events. -/
def addPeer (peers : PeerMap) (service : Service) : PeerMap × List Service :=
  if service.fqdn = "" then (peers, [])
  else
    let existingPeer := mapGet peers service.fqdn
    let peers2 := mapSet peers service.fqdn service
    match existingPeer with
    | some _ => (peers2, [])
    | none => (peers2, [service])

/-- A sequence of `addPeer` calls starting from the empty registry. -/
def runAdds (ss : List Service) : PeerMap :=
  ss.foldl (fun m s => (addPeer m s).1) []

/-- Number of registry entries stored under key `k`. -/
def keyCount (m : PeerMap) (k : String) : Nat :=
  m.countP (fun p => p.1 == k)

theorem keyCount_nil (k : String) : keyCount [] k = 0 := rfl

theorem mapGet_none_keyCount {m : PeerMap} {k : String}
    (h : mapGet m k = none) : keyCount m k = 0 := by
  induction m with
  | nil => rfl
  | cons p rest ih =>
      obtain ⟨k2, v⟩ := p
      rw [mapGet] at h
      by_cases hk : k2 = k
      · rw [if_pos hk] at h; cases h
      · rw [if_neg hk] at h
        simp only [keyCount, List.countP_cons] at ih ⊢
        simp [hk, ih h]

theorem keyCount_mapSet_absent {m : PeerMap} {k : String}
    (h : mapGet m k = none) (v : Service) :
    keyCount (mapSet m k v) k = keyCount m k + 1 := by
  induction m with
  | nil => simp [mapSet, keyCount, List.countP_cons]
  | cons p rest ih =>
      obtain ⟨k2, w⟩ := p
      rw [mapGet] at h
      by_cases hk : k2 = k
      · rw [if_pos hk] at h; cases h
      · rw [if_neg hk] at h
        simp only [mapSet, if_neg hk, keyCount, List.countP_cons] at ih ⊢
        simp [hk, ih h]

theorem keyCount_mapSet_present {m : PeerMap} {k : String} {w : Service}
    (h : mapGet m k = some w) (v : Service) :
    keyCount (mapSet m k v) k = keyCount m k := by
  induction m with
  | nil => cases h
  | cons p rest ih =>
      obtain ⟨k2, w2⟩ := p
      rw [mapGet] at h
      by_cases hk : k2 = k
      · rw [if_pos hk] at h
        simp only [mapSet, if_pos hk, keyCount, List.countP_cons]
        simp [hk]
      · rw [if_neg hk] at h
        simp only [mapSet, if_neg hk, keyCount, List.countP_cons] at ih ⊢
        simp [hk, ih h]

theorem keyCount_mapSet_other {m : PeerMap} {k k2 : String} (h : k2 ≠ k)
    (v : Service) : keyCount (mapSet m k v) k2 = keyCount m k2 := by
  have h2 : ¬(k = k2) := fun hh => h hh.symm
  induction m with
  | nil => simp [mapSet, keyCount, List.countP_cons, h2]
  | cons p rest ih =>
      obtain ⟨k3, w⟩ := p
      by_cases hk : k3 = k
      · simp only [mapSet, if_pos hk, keyCount, List.countP_cons]
        simp [hk, h]
      · simp only [mapSet, if_neg hk, keyCount, List.countP_cons] at ih ⊢
        simp [ih]

theorem mapGet_mapSet_self {α : Type} (m : List (String × α)) (k : String) (v : α) :
    mapGet (mapSet m k v) k = some v := by
  induction m with
  | nil => simp [mapSet, mapGet]
  | cons p rest ih =>
      obtain ⟨k2, w⟩ := p
      by_cases hk : k2 = k
      · simp [mapSet, if_pos hk, mapGet]
      · simp [mapSet, if_neg hk, mapGet, hk, ih]

theorem addPeer_keyCount_le {peers : PeerMap} (s : Service)
    (h : ∀ k, keyCount peers k ≤ 1) : ∀ k, keyCount (addPeer peers s).1 k ≤ 1 := by
  intro k
  rw [addPeer]
  by_cases he : s.fqdn = ""
  · simpa [he] using h k
  · rw [if_neg he]
    by_cases hk : k = s.fqdn
    · subst hk
      match hg : mapGet peers s.fqdn with
      | some w =>
          simp only [hg]
          rw [keyCount_mapSet_present hg]
          exact h _
      | none =>
          simp only [hg]
          rw [keyCount_mapSet_absent hg, mapGet_none_keyCount hg]
    · match hg : mapGet peers s.fqdn with
      | some w =>
          simp only [hg]
          rw [keyCount_mapSet_other hk]
          exact h k
      | none =>
          simp only [hg]
          rw [keyCount_mapSet_other hk]
          exact h k

/-- C3: the registry keeps at most one entry per fqdn across every sequence
of `addPeer` calls; two `addPeer` calls sharing one fqdn leave exactly one
entry for it — holding the second record — and emit `peerUp` once, on the
first call only; and a record lacking an fqdn is a no-op that emits nothing. -/
theorem addPeer_registry_C3 :
    (∀ (ss : List Service) (k : String), keyCount (runAdds ss) k ≤ 1)
    ∧ (∀ (peers : PeerMap) (s1 s2 : Service),
        s1.fqdn ≠ "" → s2.fqdn = s1.fqdn → mapGet peers s1.fqdn = none →
        (addPeer peers s1).2 = [s1]
        ∧ (addPeer (addPeer peers s1).1 s2).2 = []
        ∧ mapGet (addPeer (addPeer peers s1).1 s2).1 s1.fqdn = some s2
        ∧ keyCount (addPeer (addPeer peers s1).1 s2).1 s1.fqdn = 1)
    ∧ (∀ (peers : PeerMap) (s : Service), s.fqdn = "" →
        addPeer peers s = (peers, [])) := by
  refine ⟨?_, ?_, ?_⟩
  · intro ss
    have hrun : ∀ (m : PeerMap), (∀ k, keyCount m k ≤ 1) →
        ∀ k, keyCount (ss.foldl (fun m2 s => (addPeer m2 s).1) m) k ≤ 1 := by
      induction ss with
      | nil => intro m hm; exact hm
      | cons s rest ih =>
          intro m hm
          exact ih (addPeer m s).1 (addPeer_keyCount_le s hm)
    exact hrun [] (fun k => by simp [keyCount_nil])
  · intro peers s1 s2 h1 h2 hg
    have ha1 : addPeer peers s1 = (mapSet peers s1.fqdn s1, [s1]) := by
      rw [addPeer, if_neg h1]
      simp only [hg]
    have hg1 : mapGet (mapSet peers s1.fqdn s1) s2.fqdn = some s1 := by
      rw [h2]
      exact mapGet_mapSet_self peers s1.fqdn s1
    have ha2 : addPeer (mapSet peers s1.fqdn s1) s2
        = (mapSet (mapSet peers s1.fqdn s1) s2.fqdn s2, []) := by
      rw [addPeer, if_neg (by rw [h2]; exact h1)]
      simp only [hg1]
    refine ⟨by rw [ha1], by rw [ha1, ha2], ?_, ?_⟩
    · rw [ha1, ha2, ← h2]
      exact mapGet_mapSet_self _ s2.fqdn s2
    · rw [ha1, ha2, h2,
        keyCount_mapSet_present (mapGet_mapSet_self peers s1.fqdn s1),
        keyCount_mapSet_absent hg, mapGet_none_keyCount hg]
  · intro peers s h
    rw [addPeer, if_pos h]

theorem addPeer_registry_C3_witness :
    (keyCount (runAdds [⟨"a.local", "a", "h", 1⟩, ⟨"a.local", "a2", "h", 2⟩]) "a.local" ≤ 1)
    ∧ ((addPeer [] ⟨"a.local", "a", "h", 1⟩).2 = [⟨"a.local", "a", "h", 1⟩]
        ∧ (addPeer (addPeer [] ⟨"a.local", "a", "h", 1⟩).1 ⟨"a.local", "a2", "h", 2⟩).2 = []
        ∧ mapGet (addPeer (addPeer [] ⟨"a.local", "a", "h", 1⟩).1
            ⟨"a.local", "a2", "h", 2⟩).1 "a.local" = some ⟨"a.local", "a2", "h", 2⟩
        ∧ keyCount (addPeer (addPeer [] ⟨"a.local", "a", "h", 1⟩).1
            ⟨"a.local", "a2", "h", 2⟩).1 "a.local" = 1)
    ∧ addPeer [] ⟨"", "x", "h", 3⟩ = ([], []) :=
  ⟨addPeer_registry_C3.1 _ _,
   addPeer_registry_C3.2.1 [] ⟨"a.local", "a", "h", 1⟩ ⟨"a.local", "a2", "h", 2⟩
     (by decide) rfl rfl,
   addPeer_registry_C3.2.2 [] ⟨"", "x", "h", 3⟩ rfl⟩

/-! ### The outbound connection pool and `connectToPeer`
(src/communication.ts)

The dial made by `net.createConnection` is resolved by the environment: the
connect callback fires (success, yielding a fresh live socket) or the error
event fires (failure).  `connectToPeer` returns the promise outcome, the
`outgoingConnections` map afterwards, and whether a new dial was opened. -/

structure DialEnv where
  dialSucceeds : Bool
  freshId : Nat

abbrev ConnPool := List (String × Socket)

/-- The dial attempt of `connectToPeer`: on success the fresh socket is
stored in the pool and the promise resolves with it; on error the pool entry
is deleted and the promise rejects. -/
def dialPeer (pool : ConnPool) (peerFqdn : String) (env : DialEnv) :
    Except Unit Socket × ConnPool × Bool :=
  if env.dialSucceeds then
    let socket : Socket := ⟨env.freshId, false, true⟩
    (Except.ok socket, mapSet pool peerFqdn socket, true)
  else (Except.error (), mapDrop pool peerFqdn, true)

/-- Models `connectToPeer`: a pooled non-destroyed socket for the peer's fqdn is
returned immediately with no new dial; a pooled destroyed socket is evicted
before dialing; otherwise a new connection is dialed. -/
def connectToPeer (pool : ConnPool) (peerFqdn : String) (env : DialEnv) :
    Except Unit Socket × ConnPool × Bool :=
  match mapGet pool peerFqdn with
  | some existingSocket =>
      if existingSocket.destroyed = false then (Except.ok existingSocket, pool, false)
      else dialPeer (mapDrop pool peerFqdn) peerFqdn env
  | none => dialPeer pool peerFqdn env

/-- The `close` handler registered on an outbound socket: the pool entry is
removed so that a later `connectToPeer` redials. -/
def onSocketClose (pool : ConnPool) (peerFqdn : String) : ConnPool :=
  mapDrop pool peerFqdn

theorem mapGet_mapDrop {α : Type} (m : List (String × α)) (k : String) :
    mapGet (mapDrop m k) k = none := by
  induction m with
  | nil => rfl
  | cons p rest ih =>
      obtain ⟨k2, v⟩ := p
      by_cases hk : k2 = k
      · simpa [mapDrop, hk] using ih
      · simpa [mapDrop, mapGet, hk] using ih

theorem dialPeer_ok_pool {pool : ConnPool} {peerFqdn : String}
    {env : DialEnv} {s : Socket} {pool2 : ConnPool} {d : Bool}
    (h : dialPeer pool peerFqdn env = (Except.ok s, pool2, d)) :
    mapGet pool2 peerFqdn = some s ∧ s.destroyed = false := by
  rw [dialPeer] at h
  split at h
  · simp only [Prod.mk.injEq, Except.ok.injEq] at h
    obtain ⟨rfl, rfl, rfl⟩ := h
    exact ⟨mapGet_mapSet_self _ _ _, rfl⟩
  · simp at h

theorem connectToPeer_ok_pool {pool : ConnPool} {peerFqdn : String}
    {env : DialEnv} {s : Socket} {pool2 : ConnPool} {d : Bool}
    (h : connectToPeer pool peerFqdn env = (Except.ok s, pool2, d)) :
    mapGet pool2 peerFqdn = some s ∧ s.destroyed = false := by
  rw [connectToPeer] at h
  split at h
  · rename_i existingSocket hg
    split at h
    · rename_i hd
      simp only [Prod.mk.injEq, Except.ok.injEq] at h
      obtain ⟨rfl, rfl, rfl⟩ := h
      exact ⟨hg, hd⟩
    · exact dialPeer_ok_pool h
  · exact dialPeer_ok_pool h

/-- C4: a pooled non-destroyed socket is returned as-is with no new dial —
so two successive calls while the connection is open return the identical
handle — and once an error or close removed the pool entry, the next call
dials a fresh connection instead of reusing the failed socket. -/
theorem connection_reuse_C4 :
    (∀ (pool : ConnPool) (peerFqdn : String) (env : DialEnv) (s : Socket),
        mapGet pool peerFqdn = some s → s.destroyed = false →
        connectToPeer pool peerFqdn env = (Except.ok s, pool, false))
    ∧ (∀ (pool : ConnPool) (peerFqdn : String) (env env2 : DialEnv)
        (s : Socket) (pool2 : ConnPool) (d : Bool),
        connectToPeer pool peerFqdn env = (Except.ok s, pool2, d) →
        connectToPeer pool2 peerFqdn env2 = (Except.ok s, pool2, false))
    ∧ (∀ (pool : ConnPool) (peerFqdn : String) (env : DialEnv),
        env.dialSucceeds = false →
        (dialPeer pool peerFqdn env).1 = Except.error ()
        ∧ mapGet (dialPeer pool peerFqdn env).2.1 peerFqdn = none)
    ∧ (∀ (pool : ConnPool) (peerFqdn : String),
        mapGet (onSocketClose pool peerFqdn) peerFqdn = none)
    ∧ (∀ (pool : ConnPool) (peerFqdn : String) (env : DialEnv),
        mapGet pool peerFqdn = none → env.dialSucceeds = true →
        connectToPeer pool peerFqdn env
          = (Except.ok ⟨env.freshId, false, true⟩,
              mapSet pool peerFqdn ⟨env.freshId, false, true⟩, true)) := by
  refine ⟨?_, ?_, ?_, ?_, ?_⟩
  · intro pool peerFqdn env s hg hd
    rw [connectToPeer, hg]
    simp [hd]
  · intro pool peerFqdn env env2 s pool2 d h
    obtain ⟨hg, hd⟩ := connectToPeer_ok_pool h
    rw [connectToPeer, hg]
    simp [hd]
  · intro pool peerFqdn env hfail
    rw [dialPeer, if_neg (by rw [hfail]; exact Bool.false_ne_true)]
    exact ⟨rfl, mapGet_mapDrop pool peerFqdn⟩
  · intro pool peerFqdn
    exact mapGet_mapDrop pool peerFqdn
  · intro pool peerFqdn env hg hdial
    rw [connectToPeer, hg]
    simp [dialPeer, hdial]

theorem connection_reuse_C4_witness :
    connectToPeer [("p.local", ⟨5, false, true⟩)] "p.local" ⟨true, 9⟩
        = (Except.ok ⟨5, false, true⟩, [("p.local", ⟨5, false, true⟩)], false)
    ∧ connectToPeer (connectToPeer [] "p.local" ⟨true, 7⟩).2.1 "p.local" ⟨true, 8⟩
        = (Except.ok ⟨7, false, true⟩, (connectToPeer [] "p.local" ⟨true, 7⟩).2.1, false)
    ∧ ((dialPeer [("p.local", ⟨7, false, true⟩)] "p.local" ⟨false, 0⟩).1
          = Except.error ()
        ∧ mapGet (dialPeer [("p.local", ⟨7, false, true⟩)] "p.local"
            ⟨false, 0⟩).2.1 "p.local" = none)
    ∧ mapGet (onSocketClose [("p.local", ⟨7, false, true⟩)] "p.local") "p.local"
        = none
    ∧ connectToPeer [] "p.local" ⟨true, 7⟩
        = (Except.ok ⟨7, false, true⟩,
            mapSet [] "p.local" ⟨7, false, true⟩, true) :=
  ⟨connection_reuse_C4.1 [("p.local", ⟨5, false, true⟩)] "p.local" ⟨true, 9⟩
      ⟨5, false, true⟩ rfl rfl,
   connection_reuse_C4.2.1 [] "p.local" ⟨true, 7⟩ ⟨true, 8⟩ ⟨7, false, true⟩
      (connectToPeer [] "p.local" ⟨true, 7⟩).2.1 true rfl,
   connection_reuse_C4.2.2.1 [("p.local", ⟨7, false, true⟩)] "p.local"
      ⟨false, 0⟩ rfl,
   connection_reuse_C4.2.2.2.1 [("p.local", ⟨7, false, true⟩)] "p.local",
   connection_reuse_C4.2.2.2.2 [] "p.local" ⟨true, 7⟩ rfl rfl⟩

/-! ### `P2PService.broadcast` (src/p2pService.ts)

The loop iterates the registry snapshot; each iteration awaits
`connectToPeer` and calls `sendMessage`, with a per-iteration `try`/`catch`
that logs and continues.  `connectRes` resolves each peer's dial. -/

/-- One loop iteration of `broadcast`, in isolation: the peer's dial outcome
followed, on success, by the `sendMessage` result. -/
def attemptPeer (connectRes : Service → Except Unit Socket) (message : Json)
    (peer : Service) : Except Unit Bool :=
  match connectRes peer with
  | Except.error e => Except.error e
  | Except.ok socket => Except.ok (sendMessage socket message).1

/-- The `for…of` loop of `broadcast` with its per-iteration `try`/`catch`:
one outcome per peer, failures logged and the loop continuing. -/
def broadcastLoop (connectRes : Service → Except Unit Socket) (message : Json) :
    List Service → List (Except Unit Bool)
  | [] => []
  | peer :: rest =>
      (match connectRes peer with
       | Except.error e => Except.error e
       | Except.ok socket => Except.ok (sendMessage socket message).1)
        :: broadcastLoop connectRes message rest

/-- C5: `broadcast` attempts connect-then-send for every registry peer
independently — the loop never aborts on a failure, every peer's outcome is a
function of that peer alone, and a peer whose dial resolves to a live,
writable socket gets its message sent even when other peers fail. -/
theorem broadcast_isolation_C5 :
    (∀ (connectRes : Service → Except Unit Socket) (message : Json)
        (peers : List Service),
        broadcastLoop connectRes message peers
          = peers.map (attemptPeer connectRes message))
    ∧ (∀ (connectRes : Service → Except Unit Socket) (message : Json)
        (peers : List Service) (i : Nat),
        (broadcastLoop connectRes message peers)[i]?
          = peers[i]?.map (attemptPeer connectRes message))
    ∧ (∀ (connectRes : Service → Except Unit Socket) (message : Json)
        (peer : Service) (socket : Socket),
        connectRes peer = Except.ok socket → socket.destroyed = false →
        socket.writable = true →
        attemptPeer connectRes message peer = Except.ok true) := by
  have hmap : ∀ (connectRes : Service → Except Unit Socket) (message : Json)
      (peers : List Service),
      broadcastLoop connectRes message peers
        = peers.map (attemptPeer connectRes message) := by
    intro connectRes message peers
    induction peers with
    | nil => rfl
    | cons peer rest ih =>
        rw [broadcastLoop, List.map_cons, ih]
        rfl
  refine ⟨hmap, ?_, ?_⟩
  · intro connectRes message peers i
    rw [hmap, List.getElem?_map]
  · intro connectRes message peer socket hc hd hw
    rw [attemptPeer, hc]
    simp [sendMessage, hd, hw]

theorem broadcast_isolation_C5_witness :
    (broadcastLoop
        (fun p => if p.name = "B" then Except.error () else Except.ok ⟨1, false, true⟩)
        .null [⟨"a", "A", "h", 1⟩, ⟨"b", "B", "h", 2⟩, ⟨"c", "C", "h", 3⟩]
      = [⟨"a", "A", "h", 1⟩, ⟨"b", "B", "h", 2⟩, ⟨"c", "C", "h", 3⟩].map
          (attemptPeer
            (fun p => if p.name = "B" then Except.error () else Except.ok ⟨1, false, true⟩)
            .null))
    ∧ attemptPeer
        (fun p => if p.name = "B" then Except.error () else Except.ok ⟨1, false, true⟩)
        .null ⟨"a", "A", "h", 1⟩ = Except.ok true :=
  ⟨broadcast_isolation_C5.1 _ .null _,
   broadcast_isolation_C5.2.2 _ .null ⟨"a", "A", "h", 1⟩ ⟨1, false, true⟩
     rfl rfl rfl⟩

/-! ### The discovery `up` handler (src/discovery.ts) -/

/-- The `browser.on('up')` handler of `startDiscovery`: a record whose
advertised name and port both equal this instance's own advertisement is
discarded before reaching the registry; every other record is handed to
`peerManager.addPeer`.  `none` models the early `return`. -/
def onServiceUp (instanceName : String) (portToAnnounce : Nat)
    (peers : PeerMap) (service : Service) : Option (PeerMap × List Service) :=
  if service.name = instanceName ∧ service.port = portToAnnounce then none
  else some (addPeer peers service)

/-- C8: a discovery record is discarded exactly when its advertised name and
port both match this instance's own advertisement; every record differing in
name or port is passed to `addPeer`. -/
theorem self_filter_C8 (instanceName : String) (portToAnnounce : Nat)
    (peers : PeerMap) (service : Service) :
    (onServiceUp instanceName portToAnnounce peers service = none
      ↔ (service.name = instanceName ∧ service.port = portToAnnounce))
    ∧ (service.name ≠ instanceName ∨ service.port ≠ portToAnnounce →
        onServiceUp instanceName portToAnnounce peers service
          = some (addPeer peers service)) := by
  constructor
  · constructor
    · intro h
      by_contra hne
      rw [onServiceUp, if_neg hne] at h
      cases h
    · intro h
      rw [onServiceUp, if_pos h]
  · intro h
    rw [onServiceUp, if_neg (fun hand => by
      rcases h with h1 | h2
      · exact h1 hand.1
      · exact h2 hand.2)]

theorem self_filter_C8_witness :
    (onServiceUp "me" 4000 [] ⟨"me.local", "me", "h", 4000⟩ = none
      ↔ (("me" : String) = "me" ∧ 4000 = 4000))
    ∧ onServiceUp "me" 4000 [] ⟨"other.local", "other", "h", 4000⟩
        = some (addPeer [] ⟨"other.local", "other", "h", 4000⟩) :=
  ⟨(self_filter_C8 "me" 4000 [] ⟨"me.local", "me", "h", 4000⟩).1,
   (self_filter_C8 "me" 4000 [] ⟨"other.local", "other", "h", 4000⟩).2
     (Or.inl (by decide))⟩

/-! ### The duplicate-instance guard (src/communication.ts)

The marker state of each file is its optional content.  `parsePid` models
`parseInt(content.trim())`; a `none` result stands for `NaN`, on which the
subsequent `process.kill(pid, 0)` liveness probe throws. -/

/-- Models `parseInt` on a pid-file content: the leading digit run after trimming. -/
def parsePid (content : List Char) : Option Nat :=
  match parseNatPart (dropWs content) with
  | some p => some p.1
  | none => none

/-- The process environment seen by `acquireLock`: which pids are alive
(`process.kill(pid, 0)` not throwing), this process's own pid, and whether
reading the existing lock file succeeds. -/
structure LockEnv where
  live : Nat → Bool
  selfPid : Nat
  readOk : Bool

/-- Models `acquireLock`: exclusive creation (`wx`) succeeds exactly when the file
is absent, writing this process's pid.  When the file exists, the recorded
pid is read and probed; a live pid fails acquisition, while a read error, an
unparseable pid or a dead process hits the `catch`, which unlinks the stale
file and calls `acquireLock` again.  Returns the outcome, the final lock-file
state, and how many retries were taken. -/
def acquireLock (env : LockEnv) : Option (List Char) → Bool × Option (List Char) × Nat
  | none => (true, some (natChars env.selfPid), 0)
  | some content =>
      if env.readOk = false then
        let r := acquireLock env none
        (r.1, r.2.1, r.2.2 + 1)
      else
        match parsePid content with
        | some pid =>
            if env.live pid then (false, some content, 0)
            else
              let r := acquireLock env none
              (r.1, r.2.1, r.2.2 + 1)
        | none =>
            let r := acquireLock env none
            (r.1, r.2.1, r.2.2 + 1)
termination_by st => match st with | some _ => 1 | none => 0
decreasing_by all_goals decide

/-- C9: lock-file acquisition never retries more than once; on a stale or
unreadable marker it deletes the file and retries exactly once, succeeding
with its own pid recorded; on a marker held by a live process it fails with
no retry.  (`acquireLock` is a total function of the marker state, so the
procedure terminates on every input.) -/
theorem lock_retry_once_C9 :
    (∀ (env : LockEnv) (st : Option (List Char)), (acquireLock env st).2.2 ≤ 1)
    ∧ (∀ (env : LockEnv) (content : List Char),
        env.readOk = false ∨ parsePid content = none
          ∨ (∃ pid, parsePid content = some pid ∧ env.live pid = false) →
        acquireLock env (some content) = (true, some (natChars env.selfPid), 1))
    ∧ (∀ (env : LockEnv) (content : List Char) (pid : Nat),
        env.readOk = true → parsePid content = some pid → env.live pid = true →
        acquireLock env (some content) = (false, some content, 0)) := by
  have hnone : ∀ (env : LockEnv),
      acquireLock env none = (true, some (natChars env.selfPid), 0) :=
    fun env => by rw [acquireLock]
  refine ⟨?_, ?_, ?_⟩
  · intro env st
    match st with
    | none => simp [hnone]
    | some content =>
        rw [acquireLock]
        by_cases hr : env.readOk = false
        · simp [hr, hnone]
        · rw [if_neg hr]
          match hp : parsePid content with
          | some pid =>
              by_cases hl : env.live pid
              · simp [hl]
              · simp [hl, hnone]
          | none => simp [hnone]
  · intro env content h
    rw [acquireLock]
    rcases h with hr | hp | ⟨pid, hp, hl⟩
    · simp [hr, hnone]
    · by_cases hr : env.readOk = false
      · simp [hr, hnone]
      · simp [hr, hp, hnone]
    · by_cases hr : env.readOk = false
      · simp [hr, hnone]
      · simp [hr, hp, hl, hnone]
  · intro env content pid hr hp hl
    rw [acquireLock]
    simp [hr, hp, hl]

theorem lock_retry_once_C9_witness :
    (acquireLock ⟨fun p => p = 123, 999, true⟩ (some ['1','2','3'])).2.2 ≤ 1
    ∧ acquireLock ⟨fun p => p = 123, 999, true⟩ (some ['d','e','a','d'])
        = (true, some (natChars 999), 1)
    ∧ acquireLock ⟨fun p => p = 123, 999, true⟩ (some ['1','2','3'])
        = (false, some ['1','2','3'], 0) :=
  ⟨lock_retry_once_C9.1 ⟨fun p => p = 123, 999, true⟩ (some ['1','2','3']),
   lock_retry_once_C9.2.1 ⟨fun p => p = 123, 999, true⟩ ['d','e','a','d']
     (Or.inr (Or.inl rfl)),
   lock_retry_once_C9.2.2 ⟨fun p => p = 123, 999, true⟩ ['1','2','3'] 123
     rfl rfl (by decide)⟩

/-- The filesystem/process environment seen by `createPidFile`. -/
structure FsEnv where
  live : Nat → Bool
  selfPid : Nat
  readOk : Bool
  writeOk : Bool
  unlinkOk : Bool

/-- Models `createPidFile`: the whole body sits in a `try` whose `catch` logs and
returns `true`.  An existing file is read; its recorded pid is probed with an
inner `try` — a live pid returns `false`, a thrown probe unlinks the stale
file and falls through to writing this process's pid.  Any filesystem error
(read, unlink or write) lands in the outer `catch`, which returns `true`. -/
def createPidFile (env : FsEnv) : Option (List Char) → Bool × Option (List Char)
  | some content =>
      if env.readOk = false then (true, some content)
      else
        (match parsePid content with
         | some pid =>
             if env.live pid then (false, some content)
             else
               if env.unlinkOk = false then (true, some content)
               else if env.writeOk then (true, some (natChars env.selfPid))
               else (true, none)
         | none =>
             if env.unlinkOk = false then (true, some content)
             else if env.writeOk then (true, some (natChars env.selfPid))
             else (true, none))
  | none =>
      if env.writeOk then (true, some (natChars env.selfPid))
      else (true, none)

/-- Models `checkPortAvailability`: binding a test listener resolves `true` unless
the error is `EADDRINUSE`. -/
def checkPortAvailability (portInUse : Nat → Bool) (port : Nat) : Bool :=
  !(portInUse port)

/-- The duplicate-detection strategies of `createTcpServer`. -/
inductive DupMethod : Type where
  | lockfile : DupMethod
  | port : DupMethod
  | pidfile : DupMethod
deriving DecidableEq

/-- Models `TcpServerOptions`, with the defaults the destructuring in
`createTcpServer` fills in. -/
structure TcpServerOptions where
  preventDuplicates : Bool := true
  duplicateDetectionMethod : DupMethod := .pidfile
  specificPort : Option Nat := none

/-- The system environment `createTcpServer` runs against: both marker
states, the lock/pid process environments, which ports are in use, and the
port the OS assigns to `listen(0)`. -/
structure SysEnv where
  fs : FsEnv
  lockEnv : LockEnv
  lockSt : Option (List Char)
  pidSt : Option (List Char)
  portInUse : Nat → Bool
  osPort : Nat

/-- The port `startTcpServer(specificPort || 0, …)` ends up bound to. -/
def startTcpServerPort (env : SysEnv) (options : TcpServerOptions) : Nat :=
  match options.specificPort with
  | some p => if p = 0 then env.osPort else p
  | none => env.osPort

/-- Models `createTcpServer`: with `preventDuplicates`, the selected strategy
decides `canStart`; `false` is returned — with no listener bound — when the
strategy denies.  Otherwise the listener is bound and its port returned.
(The `port` strategy only runs when a nonzero `specificPort` is given.) -/
def createTcpServer (env : SysEnv) (options : TcpServerOptions) : Option Nat :=
  if options.preventDuplicates then
    (let canStart : Bool :=
      match options.duplicateDetectionMethod with
      | .lockfile => (acquireLock env.lockEnv env.lockSt).1
      | .pidfile => (createPidFile env.fs env.pidSt).1
      | .port =>
          match options.specificPort with
          | some p => if p ≠ 0 then checkPortAvailability env.portInUse p else true
          | none => true
    if canStart = false then none
    else some (startTcpServerPort env options))
  else some (startTcpServerPort env options)

/-- C10: the pid-file guard fails open.  `createPidFile` reports `false`
exactly when the pid file is readable and records a live process; every
filesystem error outside that liveness check is caught and turned into
`true`, and a `true` result lets `createTcpServer` (default options: pid-file
strategy) proceed to bind the listener. -/
theorem pidfile_fails_open_C10 :
    (∀ (env : FsEnv) (st : Option (List Char)),
        (createPidFile env st).1 = false
          ↔ ∃ content pid, st = some content ∧ env.readOk = true
              ∧ parsePid content = some pid ∧ env.live pid = true)
    ∧ (∀ (env : SysEnv),
        (createPidFile env.fs env.pidSt).1 = true →
        createTcpServer env {} = some env.osPort) := by
  constructor
  · intro env st
    match st with
    | none =>
        rw [createPidFile]
        constructor
        · intro h
          by_cases hw : env.writeOk <;> simp [hw] at h
        · rintro ⟨content, pid, hc, _⟩
          cases hc
    | some content =>
        rw [createPidFile]
        by_cases hr : env.readOk = false
        · simp only [if_pos hr]
          constructor
          · intro h; cases h
          · rintro ⟨c2, pid, hc, hro, _⟩
            cases hc
            rw [hro] at hr
            cases hr
        · rw [if_neg hr]
          match hp : parsePid content with
          | some pid =>
              by_cases hl : env.live pid
              · simp only [if_pos hl]
                constructor
                · intro _
                  exact ⟨content, pid, rfl,
                    by revert hr; cases env.readOk <;> simp, hp, hl⟩
                · intro _
                  trivial
              · constructor
                · intro h
                  by_cases hu : env.unlinkOk = false
                  · simp [hl, hu] at h
                  · by_cases hw : env.writeOk <;> simp [hl, hu, hw] at h
                · rintro ⟨c2, pid2, hc, _, hp2, hl2⟩
                  cases hc
                  rw [hp] at hp2
                  cases hp2
                  exact absurd hl2 (by simpa using hl)
          | none =>
              constructor
              · intro h
                by_cases hu : env.unlinkOk = false
                · simp [hu] at h
                · by_cases hw : env.writeOk <;> simp [hu, hw] at h
              · rintro ⟨c2, pid2, hc, _, hp2, _⟩
                cases hc
                rw [hp] at hp2
                cases hp2
  · intro env h
    rw [createTcpServer]
    simp only [h, startTcpServerPort]
    rfl

/-- An environment in which reading the pid file fails. -/
def readFailEnv : FsEnv := ⟨fun p => p = 123, 999, false, true, true⟩

/-- The state `readFailEnv` embedded in a full system state holding a pid file. -/
def readFailSys : SysEnv :=
  ⟨readFailEnv, ⟨fun _ => false, 999, true⟩, none, some ['1','2','3'],
    fun _ => false, 4567⟩

theorem pidfile_fails_open_C10_witness :
    ((createPidFile readFailEnv (some ['1','2','3'])).1 = false
      ↔ ∃ content pid, (some ['1','2','3'] : Option (List Char)) = some content
          ∧ readFailEnv.readOk = true ∧ parsePid content = some pid
          ∧ readFailEnv.live pid = true)
    ∧ createTcpServer readFailSys {} = some readFailSys.osPort :=
  ⟨pidfile_fails_open_C10.1 readFailEnv (some ['1','2','3']),
   pidfile_fails_open_C10.2 readFailSys rfl⟩

/-! ### `P2PService.start` (src/p2p/p2pService.ts) -/

/-- The observable result of one `P2PService.start` run. -/
structure StartTrace where
  tcpStarted : Bool
  tcpErrorLogged : Bool
  discoveryStarted : Bool
  discoveryPort : Option Nat
deriving DecidableEq

/-- Models `P2PService.start`: awaits `createTcpServer` with default options.  When
the `false` sentinel comes back an error is logged, but — there being no
early return — the method falls through, destructures `port` out of `false`
(yielding `undefined`) and still calls `startDiscovery` with it. -/
def serviceStart (env : SysEnv) : StartTrace :=
  match createTcpServer env {} with
  | none =>
      { tcpStarted := false, tcpErrorLogged := true,
        discoveryStarted := true, discoveryPort := none }
  | some p =>
      { tcpStarted := true, tcpErrorLogged := false,
        discoveryStarted := true, discoveryPort := some p }

/-- A system state in which the pid-file marker is held by a live process:
the pid file records pid 123, which is alive; this process is pid 999. -/
def heldEnv : SysEnv :=
  ⟨⟨fun p => p = 123, 999, true, true, true⟩,
    ⟨fun p => p = 123, 999, true⟩, none, some ['1','2','3'],
    fun _ => false, 4321⟩

/-- C2, evaluated at the failing input: with the duplicate-instance marker
held by a live process, `createTcpServer` does return the `false` sentinel
without binding a listener — but `P2PService.start` does not abort: it logs
the error and still proceeds to start discovery (advertising an undefined
port), contradicting the specified abort-on-failure behavior. -/
theorem start_proceeds_after_sentinel_C2 :
    createTcpServer heldEnv {} = none
    ∧ serviceStart heldEnv
        = { tcpStarted := false, tcpErrorLogged := true,
            discoveryStarted := true, discoveryPort := none } := by
  constructor
  · rfl
  · rfl

end P2P
